import Mathlib

/-!
Verification development for the RAG indexing/retrieval pipeline of the
AI-Agent-addon repository (src/rag.ts, the scraper in src/chat.ts part 2,
and the SQLite index store `db.ts` whose source is embedded in the README).

Modelling conventions (shallow embedding):
* JS strings are modelled as Lean `String`/`List Char`; JS `.length` (UTF-16
  units) coincides with `List Char` length on the ASCII inputs used by
  concrete examples.
* The `\s` character class of the JS regexes is modelled by the ASCII
  whitespace characters (space, tab, LF, CR, VT, FF).
* `String.prototype.toLowerCase` is modelled by ASCII lowercasing; query
  terms produced by `tokenize` only contain `[a-z0-9]`, so substring
  matching of terms is unaffected by non-ASCII case differences.
* SQLite is modelled by an explicit `Db` record; `datetime('now')` is an
  abstract clock `Db.now : Nat`.
-/

/-! ## Character and whitespace helpers (rag.ts tokenizer / normalizer) -/

/-- ASCII model of the JS regex class `\s`. -/
def jsWs (c : Char) : Bool :=
  c == ' ' || c == '\t' || c == '\n' || c == '\r' || c == '\x0b' || c == '\x0c'

/-- ASCII model of `String.prototype.toLowerCase`. -/
def jsToLower (c : Char) : Char :=
  if 'A' ≤ c ∧ c ≤ 'Z' then Char.ofNat (c.toNat + 32) else c

/-- Lowercase a whole string (`text.toLowerCase()`). -/
def strToLower (s : String) : String := String.mk (s.data.map jsToLower)

/-- Characters kept by the tokenizer's `[^a-z0-9\s]` replacement. -/
def isLowerAlnum (c : Char) : Bool :=
  ('a' ≤ c && c ≤ 'z') || ('0' ≤ c && c ≤ '9')

/-- One pass of `text.replace(/\s+/g, " ")`: every maximal whitespace run
becomes a single space.  The flag records whether the previous character was
part of a whitespace run. -/
def collapseWsAux : Bool → List Char → List Char
  | _, [] => []
  | prevWs, c :: rest =>
    if jsWs c then
      if prevWs then collapseWsAux true rest else ' ' :: collapseWsAux true rest
    else c :: collapseWsAux false rest

/-- `text.replace(/\s+/g, " ")` from `chunkText` (rag.ts line 19). -/
def collapseWs (l : List Char) : List Char := collapseWsAux false l

/-- `String.prototype.trim` on a character list. -/
def trimWs (l : List Char) : List Char :=
  ((l.dropWhile jsWs).reverse.dropWhile jsWs).reverse

/-- `text.replace(/\s+/g, " ").trim()` (rag.ts line 19). -/
def normalizeWs (text : String) : String := String.mk (trimWs (collapseWs text.data))

/-! ## Chunker (rag.ts `chunkText`, lines 18-32)

The windowing loop is modelled with explicit fuel so that the model stays
total even for the degenerate knob settings (`overlap ≥ chunk size`) under
which the JS `while` loop does not advance; `none` models non-termination. -/

/-- `start = Math.max(0, end - CHUNK_OVERLAP)` where
`end = Math.min(len, start + CHUNK_SIZE)` (rag.ts lines 26,29); `Nat`
subtraction supplies the `max 0`. -/
def nextStart (cs ov len start : Nat) : Nat := min len (start + cs) - ov

/-- The `while (start < normalized.length)` loop of `chunkText`
(rag.ts lines 25-30), fuelled.  Returns `none` when the fuel is exhausted
before the loop exits. -/
def chunkLoopF (cs ov : Nat) (l : List Char) : Nat → Nat → Option (List (List Char))
  | 0, start => if l.length ≤ start then some [] else none
  | fuel + 1, start =>
    if l.length ≤ start then some []
    else
      let e := min l.length (start + cs)
      let piece := (l.drop start).take (e - start)
      if l.length ≤ e then some [piece]
      else
        match chunkLoopF cs ov l fuel (nextStart cs ov l.length start) with
        | none => none
        | some rest => some (piece :: rest)

/-- `chunkText` parameterised by the chunk-size/overlap knobs
(rag.ts lines 18-32).  The loop is run with fuel `normalized.length`,
which suffices whenever `overlap < chunk size`. -/
def chunkTextP (cs ov : Nat) (text : String) : List String :=
  let n := normalizeWs text
  if n.length = 0 then []
  else if n.length ≤ cs then [n]
  else ((chunkLoopF cs ov n.data n.data.length 0).getD []).map String.mk

/-- Default `RAG_CHUNK_SIZE` (rag.ts line 4). -/
def CHUNK_SIZE : Nat := 1100

/-- Default `RAG_CHUNK_OVERLAP` (rag.ts line 5). -/
def CHUNK_OVERLAP : Nat := 180

/-- `chunkText` with the default knobs (rag.ts lines 18-32). -/
def chunkText (text : String) : List String := chunkTextP CHUNK_SIZE CHUNK_OVERLAP text

/-! ## Tokenizer (rag.ts `tokenize`, lines 9-16) -/

/-- True when the regex `https?:\/\/[^\s]+` could consume at least one
character here (the `[^\s]+` part needs one non-whitespace character). -/
def urlTail (l : List Char) : Bool :=
  match l with
  | [] => false
  | c :: _ => !jsWs c

/-- If the URL regex matches at the head of `l`, the length of the scheme
part (`https://` or `http://`); otherwise `none`. -/
def urlStartLen (l : List Char) : Option Nat :=
  if ("https://".data.isPrefixOf l && urlTail (l.drop 8)) then some 8
  else if ("http://".data.isPrefixOf l && urlTail (l.drop 7)) then some 7
  else none

/-- `text.replace(/https?:\/\/[^\s]+/g, " ")` (rag.ts line 12): left-to-right
scan, each match (scheme plus the maximal run of non-whitespace characters)
replaced by a single space.  Fuelled; fuel `l.length` suffices because every
step consumes at least one character. -/
def stripUrlsAux : Nat → List Char → List Char
  | 0, l => l
  | _ + 1, [] => []
  | fuel + 1, c :: rest =>
    match urlStartLen (c :: rest) with
    | some k => ' ' :: stripUrlsAux fuel (((c :: rest).drop k).dropWhile (fun ch => !jsWs ch))
    | none => c :: stripUrlsAux fuel rest

/-- `.split(/\s+/)` restricted to the nonempty fragments; the empty leading
fragment a JS split can produce is removed by the `length > 2` filter in
`tokenize` anyway.  The accumulator holds the current word reversed. -/
def splitWsAux : List Char → List Char → List (List Char)
  | [], acc => if acc.isEmpty then [] else [acc.reverse]
  | c :: rest, acc =>
    if jsWs c then
      if acc.isEmpty then splitWsAux rest [] else acc.reverse :: splitWsAux rest []
    else splitWsAux rest (c :: acc)

/-- `tokenize` (rag.ts lines 9-16): lowercase, strip URLs, replace
`[^a-z0-9\s]` by spaces, split on whitespace, keep words of length > 2. -/
def tokenize (text : String) : List String :=
  let lowered := text.data.map jsToLower
  let noUrls := stripUrlsAux lowered.length lowered
  let cleaned := noUrls.map (fun c => if isLowerAlnum c || jsWs c then c else ' ')
  ((splitWsAux cleaned []).map String.mk).filter (fun w => 2 < w.length)

/-! ## Scoring (rag.ts `scoreChunk`, lines 119-130) -/

/-- `hay.split(term)` occurrence counting, fuelled (non-overlapping,
left-to-right, exactly `split(term).length - 1`).  The caller guards
`term ≠ ""` (rag.ts line 123), so the empty-needle value is never used. -/
def countOccsAux (t : List Char) : Nat → List Char → Nat
  | 0, _ => 0
  | _ + 1, [] => 0
  | fuel + 1, c :: rest =>
    if t.isPrefixOf (c :: rest) then 1 + countOccsAux t fuel ((c :: rest).drop t.length)
    else countOccsAux t fuel rest

/-- `hay.split(term).length - 1` (rag.ts line 124). -/
def countOccs (t s : List Char) : Nat := countOccsAux t s.length s

/-- `String.prototype.includes`: substring containment test. -/
def hasSub (t : List Char) : List Char → Bool
  | [] => t.isEmpty
  | c :: rest => t.isPrefixOf (c :: rest) || hasSub t rest

/-- Per-term score contribution of `scoreChunk`'s loop body
(rag.ts lines 122-128): substring occurrences in the haystack, +4 for a
title hit, +3 for a URL hit. -/
def termScore (hay titleLow urlLow : List Char) (term : String) : Nat :=
  countOccs term.data hay
    + (if hasSub term.data titleLow then 4 else 0)
    + (if hasSub term.data urlLow then 3 else 0)

/-- `scoreChunk(content, title, url, queryTerms)` (rag.ts lines 119-130).
The `if (occurrences > 0)` guard is the identity on `Nat`. -/
def scoreChunk (content title url : String) (queryTerms : List String) : Nat :=
  let hay := (strToLower (title ++ " " ++ url ++ " " ++ content)).data
  queryTerms.foldl
    (fun score term =>
      if term = "" then score
      else score + termScore hay (strToLower title).data (strToLower url).data term)
    0

/-! ## Index store (db.ts, embedded in README lines 208-280) -/

/-- A row of the `rag_chunks` table. -/
structure RagChunk where
  domain : String
  url : String
  title : String
  chunkId : Nat
  content : String
deriving DecidableEq, Repr

/-- A row of the `rag_meta` table; `indexedAt` abstracts `datetime('now')`. -/
structure RagMeta where
  domain : String
  siteName : Option String
  pageCount : Nat
  chunkCount : Nat
  indexedAt : Nat
deriving DecidableEq, Repr

/-- A page as produced by the scraper (`PageData` in the scraper source). -/
structure PageData where
  url : String
  title : String
  content : String
deriving DecidableEq, Repr

/-- A prepared page handed to `replaceRagChunks` (rag.ts lines 142-146). -/
structure PreparedPage where
  url : String
  title : String
  chunks : List String
deriving DecidableEq, Repr

/-- The SQLite database state.  `facts` stores, per domain, the scraped
pages from which `extractFactsObject` (a pure function of the pages, whose
regex heuristics no claim depends on) computes the persisted JSON blob.
`now` abstracts the wall clock used by `datetime('now')`. -/
structure Db where
  chunks : List RagChunk
  meta : List RagMeta
  facts : List (String × List PageData)
  now : Nat
deriving DecidableEq, Repr

/-- JS `s || d` for strings: the empty string is falsy. -/
def jsOrStr (s d : String) : String := if s = "" then d else s

/-- JS `s || d` for a nullable string column. -/
def jsOrOpt (s : Option String) (d : String) : String :=
  match s with
  | none => d
  | some s => jsOrStr s d

/-- SQLite byte-wise (= codepoint-wise for UTF-8) string comparison used by
`ORDER BY url`. -/
def charListLt : List Char → List Char → Bool
  | [], [] => false
  | [], _ :: _ => true
  | _ :: _, [] => false
  | a :: as, b :: bs => if a < b then true else if b < a then false else charListLt as bs

/-- The `ORDER BY url, chunk_id` key order of `getRagChunks`. -/
def chunkLe (a b : RagChunk) : Prop :=
  charListLt a.url.data b.url.data = true ∨ (a.url = b.url ∧ a.chunkId ≤ b.chunkId)

instance : DecidableRel chunkLe := fun _ _ =>
  inferInstanceAs (Decidable (_ ∨ _))

/-- The rows `replaceRagChunks` inserts for one page: chunk ids are the
0-based positions within the page (README `for (let i = 0; ...)`). -/
def pageChunkRows (domain : String) (p : PreparedPage) : List RagChunk :=
  p.chunks.enum.map (fun ic => ⟨domain, p.url, jsOrStr p.title "Untitled", ic.1, ic.2⟩)

/-- `replaceRagChunks(domain, siteName, pages)` (README lines 208-244):
inside one transaction, delete the domain's chunks, insert the new rows,
upsert `rag_meta`; returns `{pageCount, chunkCount}`.  Primary-key
conflicts cannot arise when page URLs are pairwise distinct, which is the
only regime the claims consider, so the constraint check is not modelled. -/
def replaceRagChunks (db : Db) (domain : String) (siteName : Option String)
    (pages : List PreparedPage) : Db × Nat × Nat :=
  let kept := db.chunks.filter (fun c => c.domain ≠ domain)
  let newRows := (pages.map (pageChunkRows domain)).flatten
  let pageCount := pages.length
  let chunkCount := (pages.map (fun p => p.chunks.length)).sum
  let newMeta : RagMeta := ⟨domain, siteName, pageCount, chunkCount, db.now⟩
  (⟨kept ++ newRows, db.meta.filter (fun m => m.domain ≠ domain) ++ [newMeta], db.facts, db.now⟩,
    pageCount, chunkCount)

/-- `getRagChunks(domain)` (README lines 246-255): the domain's rows ordered
by `(url, chunk_id)`. -/
def getRagChunks (db : Db) (domain : String) : List RagChunk :=
  List.insertionSort chunkLe (db.chunks.filter (fun c => c.domain = domain))

/-- `getRagMeta(domain)` (README lines 257-273). -/
def getRagMeta (db : Db) (domain : String) : Option RagMeta :=
  db.meta.find? (fun m => m.domain == domain)

/-- `putSiteFacts(domain, extractFactsObject(pages))` (README lines 184-194,
rag.ts line 152): upsert of the domain's facts blob. -/
def putSiteFacts (db : Db) (domain : String) (pages : List PageData) : Db :=
  { db with facts := db.facts.filter (fun f => f.1 ≠ domain) ++ [(domain, pages)] }

/-! ## Build / ensure (rag.ts lines 132-174) -/

/-- The result record of `buildRagIndex` (rag.ts lines 132-137). -/
structure BuildStats where
  domain : String
  siteName : String
  pageCount : Nat
  chunkCount : Nat
deriving DecidableEq, Repr

/-- `buildRagIndex(domain, siteName)` (rag.ts lines 132-154).  The scrape
result `pages` (`await scrapesite(domain)`) is passed as an argument; a
thrown `Error` is the `.error` branch, paired with the database state at
the throw point. -/
def buildRagIndex (db : Db) (domain siteName : String) (pages : List PageData) :
    Db × Except String BuildStats :=
  if pages.length = 0 then
    (db, .error "RAG bootstrap failed: no pages were scraped")
  else
    let preparedPages : List PreparedPage :=
      pages.map (fun p => ⟨p.url, jsOrStr p.title "Untitled", chunkText p.content⟩)
    let rep := replaceRagChunks db domain (some siteName) preparedPages
    if rep.2.2 = 0 then
      (rep.1, .error "RAG bootstrap failed: pages were scraped but no chunks were generated")
    else
      (putSiteFacts rep.1 domain pages, .ok ⟨domain, siteName, rep.2.1, rep.2.2⟩)

/-- The result record of `ensureRagIndex` (rag.ts lines 156-174). -/
structure EnsureResult where
  domain : String
  siteName : String
  pageCount : Nat
  chunkCount : Nat
  indexedAt : Nat
  built : Bool
deriving DecidableEq, Repr

/-- The rebuild branch of `ensureRagIndex` (rag.ts lines 168-173). -/
def ensureBuild (db : Db) (domain siteName : String) (pages : List PageData) :
    Db × Except String EnsureResult :=
  match buildRagIndex db domain siteName pages with
  | (db', .error e) => (db', .error e)
  | (db', .ok stats) =>
    (db', .ok ⟨stats.domain, stats.siteName, stats.pageCount, stats.chunkCount, db'.now, true⟩)

/-- `ensureRagIndex(domain, siteName, force)` (rag.ts lines 156-174).  As in
`buildRagIndex`, the potential scrape result is an argument; the fast path
neither inspects it nor changes the database. -/
def ensureRagIndex (db : Db) (domain siteName : String) (force : Bool)
    (pages : List PageData) : Db × Except String EnsureResult :=
  match getRagMeta db domain with
  | some meta =>
    if force = false ∧ 0 < meta.chunkCount then
      (db, .ok ⟨domain, jsOrOpt meta.siteName siteName, meta.pageCount, meta.chunkCount,
        meta.indexedAt, false⟩)
    else ensureBuild db domain siteName pages
  | none => ensureBuild db domain siteName pages

/-! ## Retriever (rag.ts `retrieveRagContext`, lines 176-221) -/

/-- A scored chunk (`PreparedChunk` of rag.ts lines 111-117). -/
structure PreparedChunk where
  url : String
  title : String
  chunkId : Nat
  content : String
  score : Nat
deriving DecidableEq, Repr

/-- Default `RAG_TOP_K` (rag.ts line 6). -/
def TOP_K : Nat := 8

/-- Default `RAG_MAX_CONTEXT_CHARS` (rag.ts line 7). -/
def MAX_CONTEXT_CHARS : Nat := 12000

/-- `rows.map(row => ({...row, score: scoreChunk(...)}))` (rag.ts 192-198). -/
def scoreRows (rows : List RagChunk) (queryTerms : List String) : List PreparedChunk :=
  rows.map (fun row =>
    ⟨row.url, row.title, row.chunkId, row.content,
      scoreChunk row.content row.title row.url queryTerms⟩)

/-- Comparator of `scored.sort((a, b) => b.score - a.score)`: descending
score. -/
def scoreGe (a b : PreparedChunk) : Prop := b.score ≤ a.score

instance : DecidableRel scoreGe := fun _ _ => inferInstanceAs (Decidable (_ ≤ _))

/-- The stable descending sort of rag.ts line 200 (JS `Array.prototype.sort`
is stable). -/
def sortScored (l : List PreparedChunk) : List PreparedChunk :=
  List.insertionSort scoreGe l

/-- `scored[0]?.score ?? 0` after sorting (rag.ts line 201). -/
def headScore : List PreparedChunk → Nat
  | [] => 0
  | a :: _ => a.score

/-- `scored.filter((s, i) => i < topK && (s.score > 0 || i < 2))`
(rag.ts line 202), with the running element index `i`. -/
def idxFilter (topK : Nat) : Nat → List PreparedChunk → List PreparedChunk
  | _, [] => []
  | i, c :: cs =>
    if i < topK ∧ (0 < c.score ∨ i < 2) then c :: idxFilter topK (i + 1) cs
    else idxFilter topK (i + 1) cs

/-- The selection step of the retriever (rag.ts line 202). -/
def selectChunks (topK : Nat) (l : List PreparedChunk) : List PreparedChunk :=
  idxFilter topK 0 l

/-- The labelled block built for one selected chunk (rag.ts line 208). -/
def entryFor (c : PreparedChunk) : String :=
  "--- " ++ c.title ++ " (" ++ c.url ++ ") [chunk " ++ Nat.repr c.chunkId ++ "] ---\n"
    ++ c.content

/-- The assembly loop of rag.ts lines 204-213: keep chunks while the running
total of entry lengths stays within `maxChars`; the first overflow `break`s.
`total` is the accumulated entry length. -/
def takeWithinBudget (maxChars : Nat) : Nat → List PreparedChunk → List PreparedChunk
  | _, [] => []
  | total, c :: cs =>
    if maxChars < total + (entryFor c).length then []
    else c :: takeWithinBudget maxChars (total + (entryFor c).length) cs

/-- `parts.join("\n\n")` (rag.ts line 216). -/
def joinSep (sep : String) : List String → String
  | [] => ""
  | [a] => a
  | a :: b :: t => a ++ sep ++ joinSep sep (b :: t)

/-- `Set` insertion order of `sources` (rag.ts lines 205, 212): first
occurrences, in order. -/
def dedupKeepFirst (l : List String) : List String :=
  l.foldl (fun acc u => if u ∈ acc then acc else acc ++ [u]) []

/-- The sorted, scored chunk list the retriever works on (rag.ts 191-200). -/
def ragScored (db : Db) (domain userQuery : String) : List PreparedChunk :=
  sortScored (scoreRows (getRagChunks db domain) (tokenize userQuery))

/-- The chunks selected for context assembly (rag.ts line 202). -/
def ragSelected (db : Db) (domain userQuery : String) (topK : Nat) : List PreparedChunk :=
  selectChunks topK (ragScored db domain userQuery)

/-- The chunks whose blocks are actually emitted (rag.ts lines 204-213). -/
def ragTaken (db : Db) (domain userQuery : String) (topK maxChars : Nat) : List PreparedChunk :=
  takeWithinBudget maxChars 0 (ragSelected db domain userQuery topK)

/-- The result record of `retrieveRagContext` (rag.ts lines 180-185);
`topScore` duplicates `bestScore` as in the source (lines 218-219). -/
structure RetrieveResult where
  context : String
  sources : List String
  bestScore : Nat
  topScore : Nat
deriving DecidableEq, Repr

/-- `retrieveRagContext(domain, userQuery, opts)` (rag.ts lines 176-221).
`topKOpt`/`maxCharsOpt` model `opts?.topK ?? TOP_K` etc. -/
def retrieveRagContext (db : Db) (domain userQuery : String)
    (topKOpt maxCharsOpt : Option Nat) : RetrieveResult :=
  let topK := topKOpt.getD TOP_K
  let maxChars := maxCharsOpt.getD MAX_CONTEXT_CHARS
  let rows := getRagChunks db domain
  if rows.isEmpty then ⟨"", [], 0, 0⟩
  else
    let scored := ragScored db domain userQuery
    let bestScore := headScore scored
    let taken := takeWithinBudget maxChars 0 (selectChunks topK scored)
    ⟨joinSep "\n\n" (taken.map entryFor), dedupKeepFirst (taken.map (fun c => c.url)),
      bestScore, bestScore⟩

/-- Default `RAG_MIN_TOPIC_SCORE` (rag.ts line 225). -/
def RAG_MIN_TOPIC_SCORE : Nat := 2

/-- `isLikelyOnTopic(domain, message)` (rag.ts lines 223-227). -/
def isLikelyOnTopic (db : Db) (domain message : String) : Bool :=
  RAG_MIN_TOPIC_SCORE ≤ (retrieveRagContext db domain message (some 1) (some 1200)).bestScore

/-! ## Scraper crawl loop (scraper source, `scrapesite`, chat.ts part 2
lines 379-438)

The per-URL work `fetchPage` + `extractText` + per-link `normUrl` is
abstracted into an oracle `String → Option Extracted`: `none` models a
failed / timed-out / non-HTML fetch, and `links` holds the already
`normUrl`-normalised same-origin candidate links of the page (normalisation
itself is pure string/URL plumbing no claim depends on).  Batch results are
appended in batch order; JS completion order within a batch is
nondeterministic, but the counts the claims speak about are unaffected. -/

/-- The outcome of fetching and extracting one URL. -/
structure Extracted where
  title : String
  text : String
  links : List String
deriving DecidableEq, Repr

/-- The mutable state of the `scrapesite` crawl loop.  `fetched` logs every
URL actually handed to the fetcher (including failing fetches). -/
structure CrawlState where
  queue : List String
  visited : List String
  pages : List PageData
  fetched : List String
deriving DecidableEq, Repr

/-- `MAX_PAGES <= 0 || visited.size < MAX_PAGES` (line 391); `maxPages = 0`
models the unbounded setting. -/
def canVisitMore (maxPages : Nat) (visited : List String) : Bool :=
  maxPages = 0 || visited.length < maxPages

/-- The inner batch-collection loop (lines 395-402): shift URLs off the
queue, and while the per-URL guard holds mark them visited and put them in
the batch.  Returns `(batch, remaining queue, visited)`. -/
def takeBatch (maxPages conc : Nat) : List String → List String → List String →
    List String × List String × List String
  | [], visited, batch => (batch, [], visited)
  | u :: rest, visited, batch =>
    if conc ≤ batch.length then (batch, u :: rest, visited)
    else if u ∉ visited ∧ canVisitMore maxPages visited then
      takeBatch maxPages conc rest (visited ++ [u]) (batch ++ [u])
    else takeBatch maxPages conc rest visited batch

/-- The alternatives of the core-page regex
`/(\/about|\/about-us|\/contact|\/contact-us|\/services)(\/|$)/i`
(line 430). -/
def coreAlts : List (List Char) :=
  ["/about".data, "/about-us".data, "/contact".data, "/contact-us".data, "/services".data]

/-- One alternative matching at the head of `s`, followed by `/` or the end
of the string. -/
def coreAt (alt s : List Char) : Bool :=
  alt.isPrefixOf s &&
    (match s.drop alt.length with
     | [] => true
     | c :: _ => c == '/')

/-- Scan all positions of `s` for a core-path match. -/
def coreScan : List Char → Bool
  | [] => false
  | c :: rest => coreAlts.any (fun a => coreAt a (c :: rest)) || coreScan rest

/-- The core-page test of line 430 (case-insensitive). -/
def isCore (u : String) : Bool := coreScan (u.data.map jsToLower)

/-- Processing of one fetched batch (lines 405-423): failed fetches and
pages with fewer than 20 characters of text are dropped; surviving pages are
appended with content truncated to 8000 characters; links not yet visited
are collected as discovered. -/
def processBatch (oracle : String → Option Extracted) (visited : List String) :
    List String → List PageData × List String
  | [] => ([], [])
  | u :: rest =>
    let acc := processBatch oracle visited rest
    match oracle u with
    | none => acc
    | some ex =>
      if ex.text.length < 20 then acc
      else
        (⟨u, ex.title, ex.text.take 8000⟩ :: acc.1,
          ex.links.filter (fun l => l ∉ visited) ++ acc.2)

/-- The outer `while (queue.length > 0 && canVisitMore())` loop of
`scrapesite` (lines 393-434), fuelled.  Discovered links are enqueued after
the batch, core pages first (lines 426-433). -/
def scrapeLoopF (oracle : String → Option Extracted) (maxPages conc : Nat) :
    Nat → CrawlState → CrawlState
  | 0, st => st
  | fuel + 1, st =>
    if st.queue.isEmpty then st
    else if !canVisitMore maxPages st.visited then st
    else
      let tb := takeBatch maxPages conc st.queue st.visited []
      if tb.1.isEmpty then { st with queue := tb.2.1, visited := tb.2.2 }
      else
        let pb := processBatch oracle tb.2.2 tb.1
        scrapeLoopF oracle maxPages conc fuel
          { queue := tb.2.1 ++ pb.2.filter isCore ++ pb.2.filter (fun u => !isCore u),
            visited := tb.2.2,
            pages := st.pages ++ pb.1,
            fetched := st.fetched ++ tb.1 }

/-- `scrapesite(domain)` (lines 379-438): run the crawl loop from the seed
queue (seed paths plus sitemap URLs, passed in as `queue0`) with empty
visited/pages accumulators. -/
def scrapesite (oracle : String → Option Extracted) (maxPages conc fuel : Nat)
    (queue0 : List String) : CrawlState :=
  scrapeLoopF oracle maxPages conc fuel ⟨queue0, [], [], []⟩

/-! ## Concrete instances used by counterexamples and witnesses -/

/-- A pre-existing chunk row for domain `d`. -/
def oldChunk : RagChunk := ⟨"d", "u0", "t0", 0, "old content"⟩

/-- The pre-existing metadata row for domain `d`. -/
def oldMeta : RagMeta := ⟨"d", some "S", 1, 1, 0⟩

/-- A database in which domain `d` is already indexed. -/
def exDb1 : Db := ⟨[oldChunk], [oldMeta], [], 5⟩

/-- A scraped page whose content normalises to the empty string, so it
yields zero chunks. -/
def exPages1 : List PageData := [⟨"u1", "T", " "⟩]

/-- Two stored chunks for domain `d` whose entry blocks are 25 characters
each. -/
def exDb2 : Db :=
  ⟨[⟨"d", "u", "t", 0, "c"⟩, ⟨"d", "v", "t", 0, "c"⟩], [], [], 0⟩

/-- A 1200-character text (normalisation is the identity on it), longer
than the default chunk size. -/
def longText : String := String.mk (List.replicate 1200 'a')

/-- Rebuild input with two pages with distinct URLs. -/
def exPages5 : List PreparedPage :=
  [⟨"b", "tb", ["b0", "b1"]⟩, ⟨"a", "ta", ["a0"]⟩]

/-- A database holding stale chunks for domain `d` and a chunk of another
domain. -/
def exDb5 : Db := ⟨[⟨"d", "z", "tz", 0, "stale"⟩, ⟨"e", "w", "tw", 0, "keep"⟩], [], [], 3⟩

/-- Three chunks for domain `d`, one of which mentions pipes. -/
def exDb6 : Db :=
  ⟨[⟨"d", "u1", "Acme Plumbing", 0, "we fix pipes"⟩,
    ⟨"d", "u2", "Blog", 0, "news about stuff"⟩,
    ⟨"d", "u3", "Contact", 0, "call us"⟩], [], [], 0⟩

/-- A database whose metadata for `d` reports a positive chunk count. -/
def exDb7 : Db := ⟨[⟨"d", "u", "t", 0, "c"⟩], [⟨"d", some "Site", 2, 3, 7⟩], [("d", [])], 9⟩

/-- Crawl oracle: `u1` fails to fetch, `u2` and `u3` are real pages. -/
def demoOracle (u : String) : Option Extracted :=
  if u = "u1" then none
  else if u = "u2" then some ⟨"T2", "twenty characters aa", []⟩
  else if u = "u3" then some ⟨"T3", "twenty characters bb", []⟩
  else none

/-- The crawl of `demoOracle` from seeds `[u1, u2, u3]` with a budget of 2
pages and concurrency 1. -/
def demoCrawl : CrawlState := scrapesite demoOracle 2 1 10 ["u1", "u2", "u3"]

instance : IsTotal PreparedChunk scoreGe :=
  ⟨fun a b => Nat.le_total b.score a.score⟩

instance : IsTrans PreparedChunk scoreGe :=
  ⟨fun _ _ _ hab hbc => le_trans hbc hab⟩

/-! ## Helper lemmas -/

theorem charListLt_trichot : ∀ x y, charListLt x y = true ∨ charListLt y x = true ∨ x = y := by
  intro x
  induction x with
  | nil => intro y; cases y <;> simp [charListLt]
  | cons a as ih =>
    intro y
    cases y with
    | nil => simp [charListLt]
    | cons b bs =>
      rcases lt_trichotomy a b with h | h | h
      · exact Or.inl (by simp [charListLt, h])
      · subst h
        rcases ih bs with h2 | h2 | h2
        · exact Or.inl (by simp [charListLt, h2])
        · exact Or.inr (Or.inl (by simp [charListLt, h2]))
        · exact Or.inr (Or.inr (by simp [h2]))
      · exact Or.inr (Or.inl (by simp [charListLt, h]))

theorem charListLt_trans :
    ∀ x y z, charListLt x y = true → charListLt y z = true → charListLt x z = true := by
  intro x
  induction x with
  | nil =>
    intro y z hxy hyz
    cases y with
    | nil => simp [charListLt] at hxy
    | cons b bs =>
      cases z with
      | nil => simp [charListLt] at hyz
      | cons c cs => simp [charListLt]
  | cons a as ih =>
    intro y z hxy hyz
    cases y with
    | nil => simp [charListLt] at hxy
    | cons b bs =>
      cases z with
      | nil => simp [charListLt] at hyz
      | cons c cs =>
        simp only [charListLt] at hxy hyz ⊢
        rcases lt_trichotomy a b with hab | hab | hab
        · rcases lt_trichotomy b c with hbc | hbc | hbc
          · simp [lt_trans hab hbc]
          · subst hbc; simp [hab]
          · exfalso; rw [if_neg (lt_asymm hbc), if_pos hbc] at hyz; exact Bool.false_ne_true hyz
        · subst hab
          rcases lt_trichotomy a c with hac | hac | hac
          · simp [hac]
          · subst hac
            rw [if_neg (lt_irrefl a), if_neg (lt_irrefl a)] at hxy hyz ⊢
            exact ih bs cs hxy hyz
          · exfalso; rw [if_neg (lt_asymm hac), if_pos hac] at hyz; exact Bool.false_ne_true hyz
        · exfalso; rw [if_neg (lt_asymm hab), if_pos hab] at hxy; exact Bool.false_ne_true hxy

theorem string_data_eq {s t : String} (h : s.data = t.data) : s = t := String.ext h

theorem string_length_zero_iff (s : String) : s.length = 0 ↔ s = "" := by
  cases s with
  | mk d => simp [String.length, String.ext_iff]

/-! ## C3: chunker on short inputs -/

/-- C3 counterexample: the claim "for every input whose normalized form has
length at most the chunk size the Chunker emits exactly one chunk equal to
the normalized input" fails at the input `" "`: its normalized form is the
empty string (length 0 ≤ 1100), yet `chunkText` emits no chunk at all. -/
theorem c3_counterexample :
    (normalizeWs " ").length ≤ CHUNK_SIZE ∧ chunkText " " ≠ [normalizeWs " "] := by
  decide

/-- C3 (amended): for every input text whose whitespace-normalized form is
nonempty and has length at most the chunk size (default 1100), the Chunker
emits exactly one chunk, equal to the normalized input.  (A text whose
normalized form is empty yields zero chunks.) -/
theorem c3_single_chunk (text : String) (h1 : normalizeWs text ≠ "")
    (h2 : (normalizeWs text).length ≤ CHUNK_SIZE) :
    chunkText text = [normalizeWs text] := by
  have h0 : ¬ (normalizeWs text).length = 0 := by
    intro h
    exact h1 ((string_length_zero_iff _).mp h)
  unfold chunkText chunkTextP
  simp [h0, h2]

/-- C3 witness: the amended statement instantiated at the text `"hi"`. -/
theorem c3_witness :
    (normalizeWs "hi" ≠ "" ∧ (normalizeWs "hi").length ≤ CHUNK_SIZE) ∧
      chunkText "hi" = [normalizeWs "hi"] :=
  ⟨⟨by decide, by decide⟩, c3_single_chunk "hi" (by decide) (by decide)⟩

/-! ## C7: ensureRagIndex fast path -/

/-- C7: for every database whose stored metadata for `domain` exists with a
positive `chunkCount`, `ensureRagIndex(domain, siteName, force := false)`
returns `built = false` together with the stored metadata (pageCount,
chunkCount, indexedAt) unchanged, and leaves the whole database (chunks,
metadata, facts) untouched; the result does not depend on the scrape
argument `pages`, i.e. no crawl output is consumed. -/
theorem c7_ensure_fast_path (db : Db) (domain siteName : String) (m : RagMeta)
    (hm : getRagMeta db domain = some m) (hc : 0 < m.chunkCount)
    (pages : List PageData) :
    ensureRagIndex db domain siteName false pages =
      (db, .ok ⟨domain, jsOrOpt m.siteName siteName, m.pageCount, m.chunkCount,
        m.indexedAt, false⟩) := by
  unfold ensureRagIndex
  rw [hm]
  simp [hc]

/-- C7 witness: the fast path at a concrete database whose metadata for `d`
records 3 chunks; the call with an arbitrary page list returns the stored
metadata with `built = false` and the database unchanged. -/
theorem c7_witness :
    (getRagMeta exDb7 "d" = some ⟨"d", some "Site", 2, 3, 7⟩ ∧
        0 < (3 : Nat)) ∧
      ensureRagIndex exDb7 "d" "X" false [⟨"p", "t", "c"⟩] =
        (exDb7, .ok ⟨"d", jsOrOpt (some "Site") "X", 2, 3, 7, false⟩) :=
  ⟨⟨by decide, by decide⟩,
    c7_ensure_fast_path exDb7 "d" "X" ⟨"d", some "Site", 2, 3, 7⟩ (by decide) (by decide)
      [⟨"p", "t", "c"⟩]⟩

/-! ## C1: failed build with zero chunks -/

theorem find?_append_last {α} (l : List α) (p : α → Bool) (a : α)
    (h : l.find? p = none) (hp : p a = true) : (l ++ [a]).find? p = some a := by
  induction l with
  | nil => simp [List.find?, hp]
  | cons x xs ih =>
    simp only [List.find?] at h
    cases hx : p x with
    | true => simp [hx] at h
    | false =>
      simp only [hx] at h
      simp only [List.cons_append, List.find?, hx]
      exact ih h

/-- C1 counterexample: the claim "a failed `buildIndex` (zero chunks) leaves
the persisted index unchanged" fails on `exDb1`: the pre-existing chunk and
metadata row of domain `d` are gone after the failing call (the
delete/insert/upsert transaction commits before the error is thrown). -/
theorem c1_counterexample :
    (buildRagIndex exDb1 "d" "S" exPages1).2.isOk = false ∧
      oldChunk ∈ exDb1.chunks ∧ oldMeta ∈ exDb1.meta ∧
      oldChunk ∉ (buildRagIndex exDb1 "d" "S" exPages1).1.chunks ∧
      oldMeta ∉ (buildRagIndex exDb1 "d" "S" exPages1).1.meta := by
  decide

/-- C1 (amended): when pages were crawled but every page yields zero chunks,
`buildRagIndex` throws **after** the replacement transaction has committed:
the call errors, yet the domain is left with no chunks at all, its metadata
upserted to `chunkCount = 0` (and `pageCount` = number of crawled pages),
chunks of other domains and the facts table untouched.  The domain is thus
consistently empty — not a mix of old and new — but its previous index does
not survive. -/
theorem c1_empty_build_wipes (db : Db) (domain siteName : String)
    (pages : List PageData) (hne : pages ≠ [])
    (hz : ∀ p ∈ pages, chunkText p.content = []) :
    (buildRagIndex db domain siteName pages).2.isOk = false ∧
      getRagChunks (buildRagIndex db domain siteName pages).1 domain = [] ∧
      getRagMeta (buildRagIndex db domain siteName pages).1 domain
        = some ⟨domain, some siteName, pages.length, 0, db.now⟩ ∧
      (buildRagIndex db domain siteName pages).1.chunks
        = db.chunks.filter (fun c => c.domain ≠ domain) ∧
      (buildRagIndex db domain siteName pages).1.facts = db.facts := by
  have hlen : ¬ pages.length = 0 := by simpa [List.length_eq_zero] using hne
  have hsum :
      ((pages.map (fun p : PageData =>
          (⟨p.url, jsOrStr p.title "Untitled", chunkText p.content⟩ : PreparedPage))).map
        (fun p => p.chunks.length)).sum = 0 := by
    rw [List.map_map]
    apply List.sum_eq_zero
    intro x hx
    obtain ⟨p, hp, rfl⟩ := List.mem_map.mp hx
    simp [hz p hp]
  have hflat :
      ((pages.map (fun p : PageData =>
          (⟨p.url, jsOrStr p.title "Untitled", chunkText p.content⟩ : PreparedPage))).map
        (pageChunkRows domain)).flatten = [] := by
    rw [List.flatten_eq_nil_iff]
    intro x hx
    rw [List.map_map] at hx
    obtain ⟨p, hp, rfl⟩ := List.mem_map.mp hx
    simp [pageChunkRows, hz p hp]
  have hb : buildRagIndex db domain siteName pages =
      (⟨db.chunks.filter (fun c => c.domain ≠ domain),
        db.meta.filter (fun m => m.domain ≠ domain)
          ++ [⟨domain, some siteName, pages.length, 0, db.now⟩],
        db.facts, db.now⟩,
        .error "RAG bootstrap failed: pages were scraped but no chunks were generated") := by
    unfold buildRagIndex replaceRagChunks
    rw [if_neg hlen]
    simp only [hsum, hflat, List.length_map, List.append_nil]
    simp
  refine ⟨by rw [hb]; rfl, ?_, ?_, by rw [hb], by rw [hb]⟩
  · rw [hb]
    unfold getRagChunks
    rw [List.filter_filter]
    have hnil : (db.chunks.filter fun c => decide (c.domain = domain) && decide (c.domain ≠ domain)) = [] := by
      apply List.filter_eq_nil_iff.mpr
      intro c _
      by_cases h : c.domain = domain <;> simp [h]
    rw [hnil]
    rfl
  · rw [hb]
    unfold getRagMeta
    refine find?_append_last _ _ _ ?_ (by simp)
    apply List.find?_eq_none.mpr
    intro x hx
    have hxd : x.domain ≠ domain := of_decide_eq_true (List.mem_filter.mp hx).2
    simp [hxd]

/-- C1 witness: the amended statement instantiated at `exDb1` and the page
list whose single page has whitespace-only content. -/
theorem c1_witness :
    (exPages1 ≠ [] ∧ ∀ p ∈ exPages1, chunkText p.content = []) ∧
      ((buildRagIndex exDb1 "d" "S" exPages1).2.isOk = false ∧
        getRagChunks (buildRagIndex exDb1 "d" "S" exPages1).1 "d" = [] ∧
        getRagMeta (buildRagIndex exDb1 "d" "S" exPages1).1 "d"
          = some ⟨"d", some "S", exPages1.length, 0, exDb1.now⟩ ∧
        (buildRagIndex exDb1 "d" "S" exPages1).1.chunks
          = exDb1.chunks.filter (fun c => c.domain ≠ "d") ∧
        (buildRagIndex exDb1 "d" "S" exPages1).1.facts = exDb1.facts) :=
  ⟨⟨by decide, by decide⟩,
    c1_empty_build_wipes exDb1 "d" "S" exPages1 (by decide) (by decide)⟩

/-! ## C2: context budget -/

theorem takeWithinBudget_le (maxChars : Nat) :
    ∀ (l : List PreparedChunk) (total : Nat), total ≤ maxChars →
      total + ((takeWithinBudget maxChars total l).map (fun c => (entryFor c).length)).sum
        ≤ maxChars := by
  intro l
  induction l with
  | nil => intro t ht; simpa [takeWithinBudget] using ht
  | cons c cs ih =>
    intro t ht
    by_cases h : maxChars < t + (entryFor c).length
    · simpa [takeWithinBudget, h] using ht
    · have h' : t + (entryFor c).length ≤ maxChars := Nat.le_of_not_lt h
      have hrec := ih (t + (entryFor c).length) h'
      simp only [takeWithinBudget, if_neg h, List.map_cons, List.sum_cons]
      omega

theorem joinSep_length_le (sep : String) :
    ∀ l : List String,
      (joinSep sep l).length ≤ (l.map String.length).sum + sep.length * (l.length - 1) := by
  intro l
  induction l with
  | nil => simp [joinSep]
  | cons a t ih =>
    cases t with
    | nil => simp [joinSep]
    | cons b t' =>
      have hlen : (joinSep sep (a :: b :: t')).length
          = a.length + sep.length + (joinSep sep (b :: t')).length := by
        show (a ++ sep ++ joinSep sep (b :: t')).length = _
        rw [String.length_append, String.length_append]
      have hm : sep.length * (t'.length + 1) = sep.length * t'.length + sep.length :=
        Nat.mul_succ _ _
      simp only [List.map_cons, List.sum_cons, List.length_cons] at ih ⊢
      simp only [Nat.add_sub_cancel] at ih ⊢
      rw [hlen]
      omega

/-- C2 counterexample: the claim "the returned context, including the
blank-line separators, never exceeds `maxChars`" fails: with `maxChars = 50`
and two 25-character blocks, the budget check admits both blocks (their
lengths sum to exactly 50), but the joined context is 52 characters long
because the `\n\n` separator is not counted. -/
theorem c2_counterexample :
    50 < (retrieveRagContext exDb2 "d" "q" none (some 50)).context.length := by
  decide

/-- C2 (amended): the assembly budget bounds the **sum of block lengths** by
`maxChars` (default 12000); the returned context exceeds that sum only by
the two-character blank-line separators, so its total length is at most
`maxChars + 2·(number of blocks − 1)`. -/
theorem c2_context_within_budget (db : Db) (domain query : String)
    (topKOpt maxCharsOpt : Option Nat) :
    ((ragTaken db domain query (topKOpt.getD TOP_K) (maxCharsOpt.getD MAX_CONTEXT_CHARS)).map
        (fun c => (entryFor c).length)).sum ≤ maxCharsOpt.getD MAX_CONTEXT_CHARS ∧
      (retrieveRagContext db domain query topKOpt maxCharsOpt).context.length
        ≤ maxCharsOpt.getD MAX_CONTEXT_CHARS
          + 2 * ((ragTaken db domain query (topKOpt.getD TOP_K)
              (maxCharsOpt.getD MAX_CONTEXT_CHARS)).length - 1) := by
  have hsum := takeWithinBudget_le (maxCharsOpt.getD MAX_CONTEXT_CHARS)
    (ragSelected db domain query (topKOpt.getD TOP_K)) 0 (Nat.zero_le _)
  constructor
  · unfold ragTaken
    omega
  · unfold retrieveRagContext
    by_cases hrows : (getRagChunks db domain).isEmpty
    · simp only [hrows, if_pos]
      simp
    · simp only [hrows, Bool.false_eq_true, if_false]
      have hj := joinSep_length_le "\n\n"
        ((ragTaken db domain query (topKOpt.getD TOP_K)
          (maxCharsOpt.getD MAX_CONTEXT_CHARS)).map entryFor)
      rw [List.map_map, List.length_map] at hj
      simp only [Function.comp_def] at hj
      have hsep : ("\n\n" : String).length = 2 := rfl
      rw [hsep] at hj
      unfold ragTaken ragSelected at hj ⊢
      unfold ragTaken ragSelected at hsum
      exact le_trans hj (by omega)

/-! ## C6: selection rule of the retriever -/

theorem idxFilter_nil_of_ge (topK : Nat) :
    ∀ (l : List PreparedChunk) (i : Nat), topK ≤ i → idxFilter topK i l = [] := by
  intro l
  induction l with
  | nil => intro i _; rfl
  | cons c cs ih =>
    intro i hi
    have hc : ¬ (i < topK ∧ (0 < c.score ∨ i < 2)) := by
      rintro ⟨h1, _⟩; omega
    simp only [idxFilter, if_neg hc]
    exact ih (i + 1) (le_trans hi (Nat.le_succ i))

theorem idxFilter_nil_of_zero_scores (topK : Nat) :
    ∀ (l : List PreparedChunk) (i : Nat), 2 ≤ i → (∀ c ∈ l, c.score = 0) →
      idxFilter topK i l = [] := by
  intro l
  induction l with
  | nil => intro i _ _; rfl
  | cons c cs ih =>
    intro i hi hz
    have hs0 : c.score = 0 := hz c (List.mem_cons_self c cs)
    have hc : ¬ (i < topK ∧ (0 < c.score ∨ i < 2)) := by
      rintro ⟨_, h2 | h2⟩
      · omega
      · omega
    simp only [idxFilter, if_neg hc]
    exact ih (i + 1) (by omega) (fun x hx => hz x (List.mem_cons_of_mem c hx))

theorem idxFilter_take (topK : Nat) :
    ∀ (l : List PreparedChunk) (i : Nat), List.Sorted scoreGe l →
      idxFilter topK i l = l.take (idxFilter topK i l).length := by
  intro l
  induction l with
  | nil => intro i _; rfl
  | cons c cs ih =>
    intro i hs
    by_cases hcond : i < topK ∧ (0 < c.score ∨ i < 2)
    · simp only [idxFilter, if_pos hcond, List.length_cons, List.take_succ_cons]
      exact congrArg (c :: ·) (ih (i + 1) hs.of_cons)
    · simp only [idxFilter, if_neg hcond]
      by_cases hk : i < topK
      · have h2 : c.score = 0 ∧ 2 ≤ i := by
          rcases Nat.eq_zero_or_pos c.score with h0 | h0
          · refine ⟨h0, ?_⟩
            by_contra hlt
            exact hcond ⟨hk, Or.inr (by omega)⟩
          · exact absurd ⟨hk, Or.inl h0⟩ hcond
        have hz : ∀ x ∈ cs, x.score = 0 := by
          intro x hx
          have hle : x.score ≤ c.score := (List.sorted_cons.mp hs).1 x hx
          omega
        rw [idxFilter_nil_of_zero_scores topK cs (i + 1) (by omega) hz]
        rfl
      · rw [idxFilter_nil_of_ge topK cs (i + 1) (by omega)]
        rfl

theorem idxFilter_length_le (topK : Nat) :
    ∀ (l : List PreparedChunk) (i : Nat), (idxFilter topK i l).length ≤ topK - i := by
  intro l
  induction l with
  | nil => intro i; simp [idxFilter]
  | cons c cs ih =>
    intro i
    by_cases hcond : i < topK ∧ (0 < c.score ∨ i < 2)
    · simp only [idxFilter, if_pos hcond, List.length_cons]
      have := ih (i + 1)
      omega
    · simp only [idxFilter, if_neg hcond]
      have := ih (i + 1)
      omega

theorem idxFilter_drop_pos (topK : Nat) :
    ∀ (l : List PreparedChunk) (i m : Nat), 2 ≤ i + m →
      ∀ x ∈ (idxFilter topK i l).drop m, 0 < x.score := by
  intro l
  induction l with
  | nil => intro i m _ x hx; simp [idxFilter] at hx
  | cons c cs ih =>
    intro i m him x hx
    by_cases hcond : i < topK ∧ (0 < c.score ∨ i < 2)
    · simp only [idxFilter, if_pos hcond] at hx
      cases m with
      | zero =>
        rcases List.mem_cons.mp (by simpa using hx) with hxc | hxr
        · subst hxc
          rcases hcond.2 with hpos | hlt
          · exact hpos
          · omega
        · exact ih (i + 1) 0 (by omega) x (by simpa using hxr)
      | succ m' =>
        exact ih (i + 1) m' (by omega) x (by simpa using hx)
    · simp only [idxFilter, if_neg hcond] at hx
      exact ih (i + 1) m (by omega) x hx

/-- C6: for every domain with at least one stored chunk and every query, the
chunks the retriever selects (with the default `topK = 8`) form a prefix of
the score-descending ordering; at most 8 are selected; the two
highest-ranked chunks (or the single chunk, if only one is stored) are
always selected regardless of score; and every selected chunk beyond the
first two has a strictly positive score. -/
theorem c6_selection (db : Db) (domain query : String)
    (_hne : getRagChunks db domain ≠ []) :
    ragSelected db domain query TOP_K
        = (ragScored db domain query).take (ragSelected db domain query TOP_K).length ∧
      (ragSelected db domain query TOP_K).length ≤ TOP_K ∧
      min 2 (ragScored db domain query).length ≤ (ragSelected db domain query TOP_K).length ∧
      ∀ x ∈ (ragSelected db domain query TOP_K).drop 2, 0 < x.score := by
  have hsorted : List.Sorted scoreGe (ragScored db domain query) := by
    unfold ragScored sortScored
    exact List.sorted_insertionSort scoreGe _
  refine ⟨idxFilter_take TOP_K _ 0 hsorted, ?_, ?_, ?_⟩
  · have := idxFilter_length_le TOP_K (ragScored db domain query) 0
    simpa using this
  · cases hshape : ragScored db domain query with
    | nil => simp [ragSelected, selectChunks, hshape, idxFilter]
    | cons a t =>
      cases t with
      | nil =>
        have : ragSelected db domain query TOP_K = [a] := by
          unfold ragSelected selectChunks
          rw [hshape]
          simp [idxFilter, TOP_K]
        rw [this]
        simp
      | cons b t' =>
        have h0 : (0 : Nat) < TOP_K ∧ (0 < a.score ∨ (0 : Nat) < 2) := by
          refine ⟨by norm_num [TOP_K], Or.inr (by norm_num)⟩
        have h1 : (1 : Nat) < TOP_K ∧ (0 < b.score ∨ (1 : Nat) < 2) := by
          refine ⟨by norm_num [TOP_K], Or.inr (by norm_num)⟩
        have : ragSelected db domain query TOP_K = a :: b :: idxFilter TOP_K 2 t' := by
          unfold ragSelected selectChunks
          rw [hshape]
          simp only [idxFilter, if_pos h0, if_pos h1]
        rw [this]
        simp [min_le_iff]
  · exact idxFilter_drop_pos TOP_K (ragScored db domain query) 0 2 (by omega)

/-- C6 witness: the selection rule instantiated at a three-chunk store and
the query `"plumbing"`. -/
theorem c6_witness :
    (getRagChunks exDb6 "d" ≠ []) ∧
      (ragSelected exDb6 "d" "plumbing" TOP_K
          = (ragScored exDb6 "d" "plumbing").take
              (ragSelected exDb6 "d" "plumbing" TOP_K).length ∧
        (ragSelected exDb6 "d" "plumbing" TOP_K).length ≤ TOP_K ∧
        min 2 (ragScored exDb6 "d" "plumbing").length
          ≤ (ragSelected exDb6 "d" "plumbing" TOP_K).length ∧
        ∀ x ∈ (ragSelected exDb6 "d" "plumbing" TOP_K).drop 2, 0 < x.score) :=
  ⟨by decide, c6_selection exDb6 "d" "plumbing" (by decide)⟩

/-! ## C5: replaceChunks / getChunks round trip -/

theorem chunkLe_total : ∀ a b : RagChunk, chunkLe a b ∨ chunkLe b a := by
  intro a b
  rcases charListLt_trichot a.url.data b.url.data with h | h | h
  · exact Or.inl (Or.inl h)
  · exact Or.inr (Or.inl h)
  · have hurl : a.url = b.url := string_data_eq h
    rcases Nat.le_total a.chunkId b.chunkId with h2 | h2
    · exact Or.inl (Or.inr ⟨hurl, h2⟩)
    · exact Or.inr (Or.inr ⟨hurl.symm, h2⟩)

theorem chunkLe_transitive : ∀ a b c : RagChunk, chunkLe a b → chunkLe b c → chunkLe a c := by
  intro a b c hab hbc
  rcases hab with h1 | ⟨he1, hi1⟩
  · rcases hbc with h2 | ⟨he2, hi2⟩
    · exact Or.inl (charListLt_trans _ _ _ h1 h2)
    · exact Or.inl (by rw [← he2]; exact h1)
  · rcases hbc with h2 | ⟨he2, hi2⟩
    · exact Or.inl (by rw [he1]; exact h2)
    · exact Or.inr ⟨he1.trans he2, le_trans hi1 hi2⟩

theorem mem_pageChunkRows_domain (domain : String) (p : PreparedPage) (c : RagChunk)
    (h : c ∈ pageChunkRows domain p) : c.domain = domain := by
  simp only [pageChunkRows, List.mem_map] at h
  obtain ⟨ic, _, rfl⟩ := h
  rfl

/-- C5: for every database, domain and page list with pairwise-distinct
URLs, after `replaceRagChunks` succeeds `getRagChunks(domain)` returns
exactly the chunks of the new pages — for each page its chunks with
`chunkId` `0..n−1` in page order (`pageChunkRows`) — as a permutation of
the new row set, sorted by `(url, chunkId)`; membership is exactly the new
rows, so no chunk of an earlier rebuild survives unless it is one of the
new rows. -/
theorem c5_replace_roundtrip (db : Db) (domain : String) (siteName : Option String)
    (pages : List PreparedPage) (_hnd : (pages.map (fun p => p.url)).Nodup) :
    (getRagChunks (replaceRagChunks db domain siteName pages).1 domain).Perm
        ((pages.map (pageChunkRows domain)).flatten) ∧
      List.Sorted chunkLe (getRagChunks (replaceRagChunks db domain siteName pages).1 domain) ∧
      ∀ c, c ∈ getRagChunks (replaceRagChunks db domain siteName pages).1 domain
        ↔ c ∈ (pages.map (pageChunkRows domain)).flatten := by
  have hchunks : (replaceRagChunks db domain siteName pages).1.chunks
      = db.chunks.filter (fun c => c.domain ≠ domain)
        ++ (pages.map (pageChunkRows domain)).flatten := rfl
  have hfilter : ((db.chunks.filter (fun c => c.domain ≠ domain))
        ++ (pages.map (pageChunkRows domain)).flatten).filter (fun c => c.domain = domain)
      = (pages.map (pageChunkRows domain)).flatten := by
    rw [List.filter_append]
    have h1 : (db.chunks.filter (fun c => c.domain ≠ domain)).filter
        (fun c => c.domain = domain) = [] := by
      rw [List.filter_filter]
      apply List.filter_eq_nil_iff.mpr
      intro c _
      by_cases h : c.domain = domain <;> simp [h]
    have h2 : ((pages.map (pageChunkRows domain)).flatten).filter
        (fun c => c.domain = domain)
        = (pages.map (pageChunkRows domain)).flatten := by
      apply List.filter_eq_self.mpr
      intro c hc
      obtain ⟨sub, hsub, hcsub⟩ := List.mem_flatten.mp hc
      obtain ⟨p, _, rfl⟩ := List.mem_map.mp hsub
      simp [mem_pageChunkRows_domain domain p c hcsub]
    rw [h1, h2, List.nil_append]
  have hget : getRagChunks (replaceRagChunks db domain siteName pages).1 domain
      = List.insertionSort chunkLe ((pages.map (pageChunkRows domain)).flatten) := by
    unfold getRagChunks
    rw [hchunks, hfilter]
  haveI : IsTotal RagChunk chunkLe := ⟨chunkLe_total⟩
  haveI : IsTrans RagChunk chunkLe := ⟨chunkLe_transitive⟩
  refine ⟨?_, ?_, ?_⟩
  · rw [hget]
    exact List.perm_insertionSort chunkLe _
  · rw [hget]
    exact List.sorted_insertionSort chunkLe _
  · intro c
    rw [hget]
    exact (List.perm_insertionSort chunkLe _).mem_iff

/-- C5 witness: the round trip instantiated at a database with a stale
chunk for domain `d` and a chunk of another domain, rebuilding with two
pages of distinct URLs. -/
theorem c5_witness :
    ((exPages5.map (fun p => p.url)).Nodup) ∧
      ((getRagChunks (replaceRagChunks exDb5 "d" (some "s") exPages5).1 "d").Perm
          ((exPages5.map (pageChunkRows "d")).flatten) ∧
        List.Sorted chunkLe (getRagChunks (replaceRagChunks exDb5 "d" (some "s") exPages5).1 "d") ∧
        ∀ c, c ∈ getRagChunks (replaceRagChunks exDb5 "d" (some "s") exPages5).1 "d"
          ↔ c ∈ (exPages5.map (pageChunkRows "d")).flatten) :=
  ⟨by decide, c5_replace_roundtrip exDb5 "d" (some "s") exPages5 (by decide)⟩

/-! ## C9: chunk loop termination -/

theorem chunkLoopF_isSome (cs ov : Nat) (hov : ov < cs) (l : List Char) :
    ∀ fuel start, l.length - start ≤ fuel → (chunkLoopF cs ov l fuel start).isSome = true := by
  intro fuel
  induction fuel with
  | zero =>
    intro start h
    have hs : l.length ≤ start := by omega
    simp [chunkLoopF, hs]
  | succ fuel ih =>
    intro start h
    by_cases hs : l.length ≤ start
    · simp [chunkLoopF, hs]
    · simp only [chunkLoopF, if_neg hs]
      by_cases he : l.length ≤ min l.length (start + cs)
      · simp [he]
      · have hnext : l.length - nextStart cs ov l.length start ≤ fuel := by
          unfold nextStart
          omega
        have hrec := ih (nextStart cs ov l.length start) hnext
        simp only [if_neg he]
        cases hcall : chunkLoopF cs ov l fuel (nextStart cs ov l.length start) with
        | none => rw [hcall] at hrec; simp at hrec
        | some rest => simp [hcall]

theorem nextStart_progress (cs ov len start : Nat) (hov : ov < cs) (h : start + cs < len) :
    start < nextStart cs ov len start := by
  unfold nextStart
  omega

theorem chunkLoopF_stuck (cs ov : Nat) (l : List Char) (hov : cs ≤ ov) (hlen : cs < l.length) :
    ∀ fuel, chunkLoopF cs ov l fuel 0 = none := by
  intro fuel
  induction fuel with
  | zero =>
    have h0 : ¬ l.length ≤ 0 := by omega
    simp [chunkLoopF, h0]
  | succ fuel ih =>
    have h0 : ¬ l.length ≤ 0 := by omega
    have he : ¬ l.length ≤ min l.length (0 + cs) := by omega
    have hns : nextStart cs ov l.length 0 = 0 := by
      unfold nextStart
      omega
    simp only [chunkLoopF, if_neg h0, if_neg he, hns, ih]

/-- C9: under the precondition `overlap < chunk size` (true of the defaults
180 < 1100 but not enforced on the environment knobs) the chunking loop
terminates on every input — fuel `length − start` suffices because every
iteration strictly advances the window start by `chunk size − overlap`;
without the precondition (`overlap ≥ chunk size`) the loop never advances
on texts longer than the chunk size and (modelled as fuel exhaustion)
diverges for every amount of fuel. -/
theorem c9_chunk_loop_termination :
    (∀ cs ov (l : List Char) fuel start, ov < cs → l.length - start ≤ fuel →
        (chunkLoopF cs ov l fuel start).isSome = true) ∧
      (∀ cs ov len start, ov < cs → start + cs < len →
        start < nextStart cs ov len start) ∧
      (∀ cs ov (l : List Char) fuel, cs ≤ ov → cs < l.length →
        chunkLoopF cs ov l fuel 0 = none) :=
  ⟨fun cs ov l fuel start hov h => chunkLoopF_isSome cs ov hov l fuel start h,
    fun cs ov len start hov h => nextStart_progress cs ov len start hov h,
    fun cs ov l fuel hov hlen => chunkLoopF_stuck cs ov l hov hlen fuel⟩

/-- C9 witness: the three components at concrete knob settings — the loop
completes for `cs = 3, ov = 1` on a 7-character text, advances the start,
and returns `none` for every fuel when `cs = 1, ov = 2` on a 3-character
text. -/
theorem c9_witness :
    ((1 : Nat) < 3 ∧ "abcdefg".data.length - 0 ≤ 7 ∧
        (chunkLoopF 3 1 "abcdefg".data 7 0).isSome = true) ∧
      ((1 : Nat) < 3 ∧ 0 + 3 < 9 ∧ 0 < nextStart 3 1 9 0) ∧
      ((1 : Nat) ≤ 2 ∧ 1 < "abc".data.length ∧ chunkLoopF 1 2 "abc".data 5 0 = none) :=
  ⟨⟨by decide, by decide,
      c9_chunk_loop_termination.1 3 1 "abcdefg".data 7 0 (by decide) (by decide)⟩,
    ⟨by decide, by decide,
      c9_chunk_loop_termination.2.1 3 1 9 0 (by decide) (by decide)⟩,
    ⟨by decide, by decide,
      c9_chunk_loop_termination.2.2 1 2 "abc".data 5 (by decide) (by decide)⟩⟩

/-! ## C4: chunk window characterisation -/

theorem chunkLoopF_char (cs ov : Nat) (hov : ov < cs) (l : List Char) :
    ∀ fuel start, start < l.length → l.length - start ≤ fuel →
      ∃ ws, chunkLoopF cs ov l fuel start = some ws ∧
        0 < ws.length ∧
        (∀ j (hj : j < ws.length),
          ws.get ⟨j, hj⟩ = (l.drop (start + j * (cs - ov))).take cs) ∧
        (∀ j, j + 1 < ws.length → start + j * (cs - ov) + cs < l.length) ∧
        start + (ws.length - 1) * (cs - ov) < l.length ∧
        l.length ≤ start + (ws.length - 1) * (cs - ov) + cs := by
  intro fuel
  induction fuel with
  | zero => intro start hs hf; omega
  | succ fuel ih =>
    intro start hs hf
    have hns : ¬ l.length ≤ start := by omega
    by_cases hend : l.length ≤ min l.length (start + cs)
    · -- last window: end = l.length
      have hcs : l.length ≤ start + cs := by omega
      refine ⟨[(l.drop start).take (min l.length (start + cs) - start)], ?_, by simp, ?_, ?_, ?_, ?_⟩
      · simp only [chunkLoopF, if_neg hns, if_pos hend]
      · intro j hj
        obtain rfl : j = 0 := by simpa using hj
        have hmin : min l.length (start + cs) = l.length := by omega
        have hdl : (l.drop start).length = l.length - start := List.length_drop start l
        have h1 : (l.drop start).take (l.length - start) = l.drop start :=
          List.take_of_length_le (by omega)
        have h2 : (l.drop start).take cs = l.drop start :=
          List.take_of_length_le (by omega)
        show (l.drop start).take (min l.length (start + cs) - start)
          = (l.drop (start + 0 * (cs - ov))).take cs
        calc (l.drop start).take (min l.length (start + cs) - start)
            = (l.drop start).take (l.length - start) := by rw [hmin]
          _ = l.drop start := h1
          _ = (l.drop start).take cs := h2.symm
          _ = (l.drop (start + 0 * (cs - ov))).take cs := by norm_num
      · intro j hj
        simp at hj
      · simpa using hs
      · simpa using hcs
    · -- middle window: end = start + cs < l.length
      have hlt : start + cs < l.length := by omega
      have hmin : min l.length (start + cs) = start + cs := by omega
      have hnsv : nextStart cs ov l.length start = start + (cs - ov) := by
        unfold nextStart
        omega
      obtain ⟨ws', heq', hpos', hget', hfull', hb1', hb2'⟩ :=
        ih (start + (cs - ov)) (by omega) (by omega)
      have hps : min l.length (start + cs) - start = cs := by omega
      refine ⟨(l.drop start).take cs :: ws', ?_, by simp, ?_, ?_, ?_, ?_⟩
      · simp only [chunkLoopF, if_neg hns, if_neg hend, hnsv, heq', hps]
      · intro j hj
        cases j with
        | zero =>
          show (l.drop start).take cs = (l.drop (start + 0 * (cs - ov))).take cs
          norm_num
        | succ j' =>
          have hj' : j' < ws'.length := by simpa using hj
          have := hget' j' hj'
          have hmul : (j' + 1) * (cs - ov) = j' * (cs - ov) + (cs - ov) :=
            Nat.succ_mul _ _
          have harg : start + (cs - ov) + j' * (cs - ov) = start + (j' + 1) * (cs - ov) := by
            omega
          simp only [List.get_cons_succ]
          rw [this, harg]
      · intro j hj
        cases j with
        | zero => simpa using hlt
        | succ j' =>
          have hj' : j' + 1 < ws'.length := by simpa using hj
          have := hfull' j' hj'
          have hmul : (j' + 1) * (cs - ov) = j' * (cs - ov) + (cs - ov) :=
            Nat.succ_mul _ _
          omega
      · simp only [List.length_cons, Nat.add_sub_cancel]
        have hmul : ws'.length * (cs - ov) = (ws'.length - 1) * (cs - ov) + (cs - ov) := by
          obtain ⟨m, hm⟩ : ∃ m, ws'.length = m + 1 := ⟨ws'.length - 1, by omega⟩
          rw [hm]
          simp [Nat.succ_mul]
        omega
      · simp only [List.length_cons, Nat.add_sub_cancel]
        have hmul : ws'.length * (cs - ov) = (ws'.length - 1) * (cs - ov) + (cs - ov) := by
          obtain ⟨m, hm⟩ : ∃ m, ws'.length = m + 1 := ⟨ws'.length - 1, by omega⟩
          rw [hm]
          simp [Nat.succ_mul]
        omega

/-- C4: for every text whose normalized form is longer than the chunk size
(defaults 1100/180, stride 920): the Chunker emits at least one chunk; the
j-th chunk (chunkId = emission order j) is exactly the window of the
normalized text starting at `j·stride` of width at most 1100; every chunk
except the last has length exactly 1100; the last chunk covers the tail and
is at most 1100 long; consecutive chunks overlap in exactly the 180
characters shared by their windows; and the windows cover the whole
normalized text with no gaps. -/
theorem c4_overlapping_windows (text : String)
    (h : CHUNK_SIZE < (normalizeWs text).length) :
    0 < (chunkText text).length ∧
      (∀ j (hj : j < (chunkText text).length),
        ((chunkText text).get ⟨j, hj⟩).data
          = ((normalizeWs text).data.drop (j * (CHUNK_SIZE - CHUNK_OVERLAP))).take CHUNK_SIZE) ∧
      (∀ j (hj : j < (chunkText text).length), j + 1 < (chunkText text).length →
        ((chunkText text).get ⟨j, hj⟩).length = CHUNK_SIZE) ∧
      (∀ (hl : (chunkText text).length - 1 < (chunkText text).length),
        ((chunkText text).get ⟨(chunkText text).length - 1, hl⟩).length
            = (normalizeWs text).length
              - ((chunkText text).length - 1) * (CHUNK_SIZE - CHUNK_OVERLAP) ∧
          ((chunkText text).get ⟨(chunkText text).length - 1, hl⟩).length ≤ CHUNK_SIZE) ∧
      (∀ j (hj : j < (chunkText text).length) (hj1 : j + 1 < (chunkText text).length),
        ((chunkText text).get ⟨j, hj⟩).data.drop (CHUNK_SIZE - CHUNK_OVERLAP)
          = ((chunkText text).get ⟨j + 1, hj1⟩).data.take CHUNK_OVERLAP) ∧
      (((chunkText text).length - 1) * (CHUNK_SIZE - CHUNK_OVERLAP)
          < (normalizeWs text).length ∧
        (normalizeWs text).length
          ≤ ((chunkText text).length - 1) * (CHUNK_SIZE - CHUNK_OVERLAP) + CHUNK_SIZE) ∧
      (∀ pos, pos < (normalizeWs text).length →
        ∃ j, j < (chunkText text).length ∧ j * (CHUNK_SIZE - CHUNK_OVERLAP) ≤ pos ∧
          pos < j * (CHUNK_SIZE - CHUNK_OVERLAP) + CHUNK_SIZE) := by
  have hov : CHUNK_OVERLAP < CHUNK_SIZE := by norm_num [CHUNK_SIZE, CHUNK_OVERLAP]
  have hlen : (normalizeWs text).length = (normalizeWs text).data.length := rfl
  obtain ⟨ws, heq, hpos, hget, hfull, hb1, hb2⟩ :=
    chunkLoopF_char CHUNK_SIZE CHUNK_OVERLAP hov (normalizeWs text).data
      (normalizeWs text).data.length 0 (by omega) (by omega)
  simp only [Nat.zero_add] at hget hfull hb1 hb2
  have hct : chunkText text = ws.map String.mk := by
    have hne0 : ¬ (normalizeWs text).length = 0 := by omega
    have hnle : ¬ (normalizeWs text).length ≤ CHUNK_SIZE := by omega
    simp only [chunkText, chunkTextP, if_neg hne0, if_neg hnle, heq, Option.getD_some]
  have hlenws : (chunkText text).length = ws.length := by
    rw [hct, List.length_map]
  have hgetS : ∀ j (hj : j < (chunkText text).length),
      ((chunkText text).get ⟨j, hj⟩).data
        = ((normalizeWs text).data.drop (j * (CHUNK_SIZE - CHUNK_OVERLAP))).take CHUNK_SIZE := by
    intro j hj
    have hj' : j < ws.length := hlenws ▸ hj
    have hmap : (chunkText text).get ⟨j, hj⟩ = String.mk (ws.get ⟨j, hj'⟩) := by
      simp only [List.get_eq_getElem, hct, List.getElem_map]
    rw [hmap, hget j hj']
  have hlenS : ∀ j (hj : j < (chunkText text).length),
      ((chunkText text).get ⟨j, hj⟩).length
        = min CHUNK_SIZE ((normalizeWs text).data.length - j * (CHUNK_SIZE - CHUNK_OVERLAP)) := by
    intro j hj
    have hd := hgetS j hj
    show ((chunkText text).get ⟨j, hj⟩).data.length = _
    rw [hd, List.length_take, List.length_drop]
  refine ⟨by omega, hgetS, ?_, ?_, ?_, ?_, ?_⟩
  · intro j hj hj1
    have hfw := hfull j (by omega)
    rw [hlenS j hj]
    omega
  · intro hl
    have hN1 : (chunkText text).length - 1 < (chunkText text).length := hl
    rw [hlenS _ hN1, hlenws, hlen]
    constructor
    · omega
    · omega
  · intro j hj hj1
    rw [hgetS j hj, hgetS (j + 1) hj1]
    have hsub : CHUNK_SIZE - (CHUNK_SIZE - CHUNK_OVERLAP) = CHUNK_OVERLAP := by omega
    have hmul : j * (CHUNK_SIZE - CHUNK_OVERLAP) + (CHUNK_SIZE - CHUNK_OVERLAP)
        = (j + 1) * (CHUNK_SIZE - CHUNK_OVERLAP) := (Nat.succ_mul _ _).symm
    rw [List.drop_take, List.drop_drop, List.take_take, hsub, hmul,
      min_eq_left (le_of_lt hov)]
  · rw [hlenws, hlen]
    exact ⟨hb1, hb2⟩
  · intro pos hpos
    rw [hlen] at hpos
    have hcsv : CHUNK_SIZE = 1100 := rfl
    have hovv : CHUNK_OVERLAP = 180 := rfl
    rw [hlenws] at *
    rw [hcsv, hovv] at hb1 hb2 ⊢
    refine ⟨min (pos / 920) (ws.length - 1), ?_, ?_, ?_⟩
    · omega
    · omega
    · omega

set_option maxRecDepth 100000 in
/-- C4 witness: the window characterisation instantiated at a 1200-character
text (two windows: `[0,1100)` and `[920,1200)`). -/
theorem c4_witness :
    CHUNK_SIZE < (normalizeWs longText).length ∧
      (0 < (chunkText longText).length ∧
        (∀ j (hj : j < (chunkText longText).length),
          ((chunkText longText).get ⟨j, hj⟩).data
            = ((normalizeWs longText).data.drop
                (j * (CHUNK_SIZE - CHUNK_OVERLAP))).take CHUNK_SIZE) ∧
        (∀ j (hj : j < (chunkText longText).length), j + 1 < (chunkText longText).length →
          ((chunkText longText).get ⟨j, hj⟩).length = CHUNK_SIZE) ∧
        (∀ (hl : (chunkText longText).length - 1 < (chunkText longText).length),
          ((chunkText longText).get ⟨(chunkText longText).length - 1, hl⟩).length
              = (normalizeWs longText).length
                - ((chunkText longText).length - 1) * (CHUNK_SIZE - CHUNK_OVERLAP) ∧
            ((chunkText longText).get ⟨(chunkText longText).length - 1, hl⟩).length
              ≤ CHUNK_SIZE) ∧
        (∀ j (hj : j < (chunkText longText).length)
            (hj1 : j + 1 < (chunkText longText).length),
          ((chunkText longText).get ⟨j, hj⟩).data.drop (CHUNK_SIZE - CHUNK_OVERLAP)
            = ((chunkText longText).get ⟨j + 1, hj1⟩).data.take CHUNK_OVERLAP) ∧
        (((chunkText longText).length - 1) * (CHUNK_SIZE - CHUNK_OVERLAP)
            < (normalizeWs longText).length ∧
          (normalizeWs longText).length
            ≤ ((chunkText longText).length - 1) * (CHUNK_SIZE - CHUNK_OVERLAP) + CHUNK_SIZE) ∧
        (∀ pos, pos < (normalizeWs longText).length →
          ∃ j, j < (chunkText longText).length ∧
            j * (CHUNK_SIZE - CHUNK_OVERLAP) ≤ pos ∧
            pos < j * (CHUNK_SIZE - CHUNK_OVERLAP) + CHUNK_SIZE)) :=
  ⟨by decide, c4_overlapping_windows longText (by decide)⟩

/-! ## C8: on-topic check -/

theorem hasSub_iff (t : List Char) : ∀ s, hasSub t s = true ↔ t <:+: s := by
  intro s
  induction s with
  | nil =>
    show t.isEmpty = true ↔ t <:+: []
    rw [List.isEmpty_iff, List.infix_nil]
  | cons c rest ih =>
    show (t.isPrefixOf (c :: rest) || hasSub t rest) = true ↔ t <:+: c :: rest
    rw [Bool.or_eq_true, List.isPrefixOf_iff_prefix, ih, List.infix_cons_iff]

theorem prefix_before_sep {t x y : List Char} (hsp : ' ' ∉ t) :
    t <+: x ++ ' ' :: y → t <+: x := by
  induction x generalizing t with
  | nil =>
    intro hp
    cases t with
    | nil => exact List.nil_prefix
    | cons c t' =>
      rw [List.nil_append, List.cons_prefix_cons] at hp
      exact absurd (hp.1 ▸ List.mem_cons_self c t') hsp
  | cons a x' ih =>
    intro hp
    cases t with
    | nil => exact List.nil_prefix
    | cons c t' =>
      rw [List.cons_append, List.cons_prefix_cons] at hp
      have h' : t' <+: x' := ih (fun hm => hsp (List.mem_cons_of_mem c hm)) hp.2
      exact List.cons_prefix_cons.mpr ⟨hp.1, h'⟩

theorem sub_split_sep {t : List Char} (ht : t ≠ []) (hsp : ' ' ∉ t) :
    ∀ x y, t <:+: x ++ ' ' :: y → t <:+: x ∨ t <:+: y := by
  intro x
  induction x with
  | nil =>
    intro y hin
    rw [List.nil_append, List.infix_cons_iff] at hin
    rcases hin with hp | hin
    · cases t with
      | nil => exact absurd rfl ht
      | cons c t' =>
        rw [List.cons_prefix_cons] at hp
        exact absurd (hp.1 ▸ List.mem_cons_self c t') hsp
    · exact Or.inr hin
  | cons a x' ih =>
    intro y hin
    rw [List.cons_append, List.infix_cons_iff] at hin
    rcases hin with hp | hin
    · have h' : t <+: a :: x' := prefix_before_sep hsp (by simpa using hp)
      exact Or.inl (List.infix_cons_iff.mpr (Or.inl h'))
    · rcases ih y hin with h | h
      · exact Or.inl (List.infix_cons_iff.mpr (Or.inr h))
      · exact Or.inr h

theorem countOccsAux_pos_iff (t : List Char) (ht : t ≠ []) :
    ∀ fuel s, s.length ≤ fuel → (0 < countOccsAux t fuel s ↔ t <:+: s) := by
  intro fuel
  induction fuel with
  | zero =>
    intro s hlen
    have hs : s = [] := by
      cases s with
      | nil => rfl
      | cons c cs => exact absurd hlen (by simp)
    subst hs
    simp [countOccsAux, List.infix_nil, ht]
  | succ fuel ih =>
    intro s hlen
    cases s with
    | nil => simp [countOccsAux, List.infix_nil, ht]
    | cons c rest =>
      show 0 < (if t.isPrefixOf (c :: rest) then
          1 + countOccsAux t fuel ((c :: rest).drop t.length)
        else countOccsAux t fuel rest) ↔ t <:+: c :: rest
      by_cases hp : t.isPrefixOf (c :: rest)
      · rw [if_pos hp]
        constructor
        · intro _
          exact List.infix_cons_iff.mpr
            (Or.inl (List.isPrefixOf_iff_prefix.mp hp))
        · intro _
          omega
      · rw [if_neg hp]
        have hr := ih rest (by simpa using Nat.le_of_succ_le_succ (by simpa using hlen))
        rw [hr, List.infix_cons_iff]
        have hnp : ¬ t <+: c :: rest := fun hc => hp (List.isPrefixOf_iff_prefix.mpr hc)
        constructor
        · exact Or.inr
        · rintro (hc | hc)
          · exact absurd hc hnp
          · exact hc

theorem countOccs_pos_iff (t s : List Char) (ht : t ≠ []) :
    0 < countOccs t s ↔ t <:+: s :=
  countOccsAux_pos_iff t ht s.length s le_rfl

theorem splitWsAux_words : ∀ (l acc : List Char), (∀ c ∈ acc, jsWs c = false) →
    ∀ w ∈ splitWsAux l acc, w ≠ [] ∧ ∀ c ∈ w, jsWs c = false := by
  intro l
  induction l with
  | nil =>
    intro acc hacc w hw
    by_cases he : acc.isEmpty
    · simp [splitWsAux, he] at hw
    · simp only [splitWsAux, if_neg he, List.mem_singleton] at hw
      subst hw
      refine ⟨?_, ?_⟩
      · intro hrev
        exact he (by simpa [List.isEmpty_iff] using congrArg List.length hrev)
      · intro c hc
        exact hacc c (List.mem_reverse.mp hc)
  | cons c rest ih =>
    intro acc hacc w hw
    by_cases hc : jsWs c
    · by_cases he : acc.isEmpty
      · simp only [splitWsAux, if_pos hc, if_pos he] at hw
        exact ih [] (by simp) w hw
      · simp only [splitWsAux, if_pos hc, if_neg he, List.mem_cons] at hw
        rcases hw with hw | hw
        · subst hw
          refine ⟨?_, ?_⟩
          · intro hrev
            exact he (by simpa [List.isEmpty_iff] using congrArg List.length hrev)
          · intro x hx
            exact hacc x (List.mem_reverse.mp hx)
        · exact ih [] (by simp) w hw
    · simp only [splitWsAux, if_neg hc] at hw
      refine ih (c :: acc) ?_ w hw
      intro x hx
      rcases List.mem_cons.mp hx with hx | hx
      · subst hx
        exact Bool.of_not_eq_true hc
      · exact hacc x hx

theorem tokenize_term_shape (q : String) :
    ∀ t ∈ tokenize q, t.data ≠ [] ∧ ' ' ∉ t.data := by
  intro t ht
  unfold tokenize at ht
  obtain ⟨htm, _⟩ := List.mem_filter.mp ht
  obtain ⟨w, hw, rfl⟩ := List.mem_map.mp htm
  obtain ⟨hne, hnw⟩ := splitWsAux_words _ [] (by simp) w hw
  refine ⟨hne, ?_⟩
  intro hsp
  have := hnw ' ' hsp
  simp [jsWs] at this

theorem foldl_guard_sum (g : String → Nat) :
    ∀ (l : List String) (init : Nat),
      l.foldl (fun score term => if term = "" then score else score + g term) init
        = init + (l.map (fun t => if t = "" then 0 else g t)).sum := by
  intro l
  induction l with
  | nil => intro init; simp
  | cons a t ih =>
    intro init
    by_cases ha : a = ""
    · simp only [List.foldl_cons, if_pos ha, ih init, List.map_cons, if_pos ha,
        List.sum_cons]
      omega
    · simp only [List.foldl_cons, if_neg ha, ih (init + g a), List.map_cons, if_neg ha,
        List.sum_cons]
      omega

theorem scoreChunk_eq_sum (content title url : String) (terms : List String) :
    scoreChunk content title url terms
      = (terms.map (fun t => if t = "" then 0
          else termScore (strToLower (title ++ " " ++ url ++ " " ++ content)).data
            (strToLower title).data (strToLower url).data t)).sum := by
  unfold scoreChunk
  rw [foldl_guard_sum]
  omega

theorem hay_decomp (title url content : String) :
    (strToLower (title ++ " " ++ url ++ " " ++ content)).data
      = (strToLower title).data
        ++ ' ' :: ((strToLower url).data ++ ' ' :: (strToLower content).data) := by
  show (title ++ " " ++ url ++ " " ++ content).data.map jsToLower = _
  rw [String.data_append, String.data_append, String.data_append]
  have hsp : (" " : String).data = [' '] := rfl
  rw [hsp]
  have hlsp : jsToLower ' ' = ' ' := rfl
  simp [List.map_append, hlsp, strToLower]

theorem headScore_ge (l : List PreparedChunk) (hsort : List.Sorted scoreGe l) :
    ∀ x ∈ l, x.score ≤ headScore l := by
  cases l with
  | nil => intro x hx; simp at hx
  | cons a t =>
    intro x hx
    rcases List.mem_cons.mp hx with rfl | hx
    · exact le_rfl
    · exact (List.sorted_cons.mp hsort).1 x hx

theorem headScore_zero (l : List PreparedChunk) (hz : ∀ x ∈ l, x.score = 0) :
    headScore l = 0 := by
  cases l with
  | nil => rfl
  | cons a t => exact hz a (List.mem_cons_self a t)

theorem retrieve_bestScore (db : Db) (domain query : String) (tk mc : Option Nat)
    (hne : (getRagChunks db domain).isEmpty = false) :
    (retrieveRagContext db domain query tk mc).bestScore
      = headScore (ragScored db domain query) := by
  simp only [retrieveRagContext, hne, Bool.false_eq_true, if_false]

theorem termScore_zero (hay titleLow urlLow : List Char) (term : String)
    (ht : term.data ≠ []) (hocc : ¬ term.data <:+: hay)
    (h1 : hasSub term.data titleLow = false) (h2 : hasSub term.data urlLow = false) :
    termScore hay titleLow urlLow term = 0 := by
  unfold termScore
  rw [h1, h2]
  have hc : countOccs term.data hay = 0 := by
    by_contra hc
    exact hocc ((countOccs_pos_iff term.data hay ht).mp (by omega))
  simp [hc]

/-- C8: for a domain with a non-empty stored index (and the default minimum
topic score 2): `isLikelyOnTopic` returns `false` whenever no tokenized
query term occurs as a substring of any stored chunk's lowercased title,
url, or content; and it returns `true` whenever some tokenized query term is
a substring of a stored chunk's lowercased title (the title match
contributes the flat +4 plus at least one haystack occurrence, so the best
score reaches the threshold). -/
theorem c8_on_topic (db : Db) (domain query : String)
    (hne : getRagChunks db domain ≠ []) :
    ((∀ ch ∈ getRagChunks db domain, ∀ t ∈ tokenize query,
        hasSub t.data (strToLower ch.title).data = false ∧
          hasSub t.data (strToLower ch.url).data = false ∧
          hasSub t.data (strToLower ch.content).data = false) →
      isLikelyOnTopic db domain query = false) ∧
    ((∃ ch ∈ getRagChunks db domain, ∃ t ∈ tokenize query,
        hasSub t.data (strToLower ch.title).data = true) →
      isLikelyOnTopic db domain query = true) := by
  have hemp : (getRagChunks db domain).isEmpty = false := by
    simpa [List.isEmpty_iff] using hne
  constructor
  · intro hnone
    unfold isLikelyOnTopic
    rw [retrieve_bestScore db domain query (some 1) (some 1200) hemp]
    have hs : headScore (ragScored db domain query) = 0 := by
      apply headScore_zero
      intro x hx
      have hx' : x ∈ scoreRows (getRagChunks db domain) (tokenize query) := by
        have hperm := List.perm_insertionSort scoreGe
          (scoreRows (getRagChunks db domain) (tokenize query))
        exact hperm.mem_iff.mp hx
      obtain ⟨row, hrow, rfl⟩ := List.mem_map.mp hx'
      show scoreChunk row.content row.title row.url (tokenize query) = 0
      rw [scoreChunk_eq_sum]
      apply List.sum_eq_zero
      intro v hv
      obtain ⟨t, ht, rfl⟩ := List.mem_map.mp hv
      obtain ⟨htne, htsp⟩ := tokenize_term_shape query t ht
      obtain ⟨hT, hU, hC⟩ := hnone row hrow t ht
      have hteq : ¬ t = "" := by
        intro h0
        exact htne (by rw [h0])
      rw [if_neg hteq]
      apply termScore_zero _ _ _ _ htne _ hT hU
      rw [hay_decomp]
      intro hin
      rcases sub_split_sep htne htsp _ _ hin with hin1 | hin2
      · exact absurd ((hasSub_iff t.data _).mpr hin1) (by simp [hT])
      · rcases sub_split_sep htne htsp _ _ hin2 with hin3 | hin4
        · exact absurd ((hasSub_iff t.data _).mpr hin3) (by simp [hU])
        · exact absurd ((hasSub_iff t.data _).mpr hin4) (by simp [hC])
    rw [hs]
    rfl
  · rintro ⟨ch, hch, t, ht, hsub⟩
    unfold isLikelyOnTopic
    rw [retrieve_bestScore db domain query (some 1) (some 1200) hemp]
    obtain ⟨htne, _⟩ := tokenize_term_shape query t ht
    have hteq : ¬ t = "" := by
      intro h0
      exact htne (by rw [h0])
    have htitle : t.data <:+: (strToLower ch.title).data := (hasSub_iff t.data _).mp hsub
    have hhay : t.data <:+: (strToLower (ch.title ++ " " ++ ch.url ++ " " ++ ch.content)).data := by
      rw [hay_decomp]
      obtain ⟨u, v, huv⟩ := htitle
      exact ⟨u, v ++ ' ' :: ((strToLower ch.url).data ++ ' ' :: (strToLower ch.content).data),
        by rw [← huv]; simp⟩
    have hocc : 0 < countOccs t.data
        (strToLower (ch.title ++ " " ++ ch.url ++ " " ++ ch.content)).data :=
      (countOccs_pos_iff _ _ htne).mpr hhay
    have hterm : 5 ≤ termScore
        (strToLower (ch.title ++ " " ++ ch.url ++ " " ++ ch.content)).data
        (strToLower ch.title).data (strToLower ch.url).data t := by
      unfold termScore
      rw [hsub, if_pos rfl]
      omega
    have hscore : 5 ≤ scoreChunk ch.content ch.title ch.url (tokenize query) := by
      rw [scoreChunk_eq_sum]
      have hmem : (if t = "" then 0
          else termScore (strToLower (ch.title ++ " " ++ ch.url ++ " " ++ ch.content)).data
            (strToLower ch.title).data (strToLower ch.url).data t)
          ∈ (tokenize query).map (fun t => if t = "" then 0
            else termScore (strToLower (ch.title ++ " " ++ ch.url ++ " " ++ ch.content)).data
              (strToLower ch.title).data (strToLower ch.url).data t) :=
        List.mem_map_of_mem _ ht
      have hle := List.single_le_sum (fun x _ => Nat.zero_le x) _ hmem
      rw [if_neg hteq] at hle
      omega
    have hxmem : (⟨ch.url, ch.title, ch.chunkId, ch.content,
        scoreChunk ch.content ch.title ch.url (tokenize query)⟩ : PreparedChunk)
        ∈ ragScored db domain query := by
      unfold ragScored sortScored
      have hperm := List.perm_insertionSort scoreGe
        (scoreRows (getRagChunks db domain) (tokenize query))
      apply hperm.mem_iff.mpr
      exact List.mem_map_of_mem _ hch
    have hsorted : List.Sorted scoreGe (ragScored db domain query) := by
      unfold ragScored sortScored
      exact List.sorted_insertionSort scoreGe _
    have hge : scoreChunk ch.content ch.title ch.url (tokenize query)
        ≤ headScore (ragScored db domain query) :=
      headScore_ge (ragScored db domain query) hsorted _ hxmem
    have h2 : RAG_MIN_TOPIC_SCORE = 2 := rfl
    apply decide_eq_true
    show RAG_MIN_TOPIC_SCORE ≤ headScore (ragScored db domain query)
    simp only [h2]
    omega

/-- C8 witness: at a three-chunk store for domain `d`, the query `"zzz"`
(no lexical overlap) is off-topic and the query `"plumbing"` (verbatim in
the title `"Acme Plumbing"`) is on-topic. -/
theorem c8_witness :
    (getRagChunks exDb6 "d" ≠ [] ∧
        (∀ ch ∈ getRagChunks exDb6 "d", ∀ t ∈ tokenize "zzz",
          hasSub t.data (strToLower ch.title).data = false ∧
            hasSub t.data (strToLower ch.url).data = false ∧
            hasSub t.data (strToLower ch.content).data = false) ∧
        isLikelyOnTopic exDb6 "d" "zzz" = false) ∧
      ((∃ ch ∈ getRagChunks exDb6 "d", ∃ t ∈ tokenize "plumbing",
          hasSub t.data (strToLower ch.title).data = true) ∧
        isLikelyOnTopic exDb6 "d" "plumbing" = true) :=
  ⟨⟨by decide, by decide, (c8_on_topic exDb6 "d" "zzz" (by decide)).1 (by decide)⟩,
    ⟨by decide, (c8_on_topic exDb6 "d" "plumbing" (by decide)).2 (by decide)⟩⟩

/-! ## C10: crawl page budget -/

theorem takeBatch_spec (maxPages conc : Nat) :
    ∀ (queue visited batch : List String),
      ∃ added q',
        takeBatch maxPages conc queue visited batch = (batch ++ added, q', visited ++ added) ∧
        (0 < maxPages → visited.length ≤ maxPages → (visited ++ added).length ≤ maxPages) := by
  intro queue
  induction queue with
  | nil =>
    intro visited batch
    exact ⟨[], [], by simp [takeBatch], fun _ h => by simpa using h⟩
  | cons u rest ih =>
    intro visited batch
    by_cases hb : conc ≤ batch.length
    · exact ⟨[], u :: rest, by simp [takeBatch, if_pos hb], fun _ h => by simpa using h⟩
    · by_cases hv : u ∉ visited ∧ canVisitMore maxPages visited
      · obtain ⟨added, q', heq, hbound⟩ := ih (visited ++ [u]) (batch ++ [u])
        refine ⟨u :: added, q', ?_, ?_⟩
        · simp only [takeBatch, if_neg hb, if_pos hv]
          rw [heq]
          simp
        · intro hM hle
          have hlt : visited.length < maxPages := by
            have hcv := hv.2
            unfold canVisitMore at hcv
            simp only [Bool.or_eq_true, decide_eq_true_eq, Nat.lt_iff_add_one_le] at hcv
            omega
          have := hbound hM (by simp; omega)
          simpa using this
      · obtain ⟨added, q', heq, hbound⟩ := ih visited batch
        exact ⟨added, q', by simp only [takeBatch, if_neg hb, if_neg hv]; exact heq, hbound⟩

theorem processBatch_pages_le (oracle : String → Option Extracted) (visited : List String) :
    ∀ batch, (processBatch oracle visited batch).1.length ≤ batch.length := by
  intro batch
  induction batch with
  | nil => simp [processBatch]
  | cons u rest ih =>
    simp only [processBatch]
    cases oracle u with
    | none =>
      simp only [List.length_cons]
      omega
    | some ex =>
      by_cases hl : ex.text.length < 20
      · simp only [if_pos hl, List.length_cons]
        omega
      · simp only [if_neg hl, List.length_cons]
        omega

theorem scrapeLoopF_inv (oracle : String → Option Extracted) (maxPages conc : Nat)
    (hM : 0 < maxPages) :
    ∀ fuel st, st.visited.length ≤ maxPages → st.fetched.length = st.visited.length →
      st.pages.length ≤ st.fetched.length →
      (scrapeLoopF oracle maxPages conc fuel st).visited.length ≤ maxPages ∧
        (scrapeLoopF oracle maxPages conc fuel st).fetched.length
          = (scrapeLoopF oracle maxPages conc fuel st).visited.length ∧
        (scrapeLoopF oracle maxPages conc fuel st).pages.length
          ≤ (scrapeLoopF oracle maxPages conc fuel st).fetched.length := by
  intro fuel
  induction fuel with
  | zero => intro st h1 h2 h3; exact ⟨h1, h2, h3⟩
  | succ fuel ih =>
    intro st h1 h2 h3
    obtain ⟨added, q', heq, hbound⟩ := takeBatch_spec maxPages conc st.queue st.visited []
    rw [List.nil_append] at heq
    simp only [scrapeLoopF]
    by_cases hq : st.queue.isEmpty
    · simp only [if_pos hq]
      exact ⟨h1, h2, h3⟩
    · simp only [if_neg hq]
      by_cases hcv : !canVisitMore maxPages st.visited
      · simp only [if_pos hcv]
        exact ⟨h1, h2, h3⟩
      · simp only [if_neg hcv, heq]
        by_cases hbe : added.isEmpty
        · simp only [if_pos hbe]
          have hanil : added = [] := List.isEmpty_iff.mp hbe
          subst hanil
          simpa using ⟨h1, h2, h3⟩
        · simp only [if_neg hbe]
          apply ih
          · exact hbound hM h1
          · simp only [List.length_append]
            rw [h2]
          · simp only [List.length_append]
            have hpb := processBatch_pages_le oracle (st.visited ++ added) added
            omega

/-- C10: for every crawl with a positive page budget `M` (and any oracle,
concurrency, fuel and seed queue): at most `M` URLs are ever marked
visited; every fetch attempt — successes and failures alike — consumes the
budget (the fetch log and the visited set stay equal in size); the returned
page list has at most as many entries as fetch attempts, hence at most `M`
pages.  The concrete crawl `demoCrawl` additionally shows the list can stay
strictly below `M` while a fetchable same-origin URL (`u3`) is still queued
and unvisited, because the failing fetch of `u1` consumed budget. -/
theorem c10_crawl_budget :
    (∀ (oracle : String → Option Extracted) (maxPages conc fuel : Nat)
        (queue0 : List String), 0 < maxPages →
      (scrapesite oracle maxPages conc fuel queue0).visited.length ≤ maxPages ∧
        (scrapesite oracle maxPages conc fuel queue0).fetched.length
          = (scrapesite oracle maxPages conc fuel queue0).visited.length ∧
        (scrapesite oracle maxPages conc fuel queue0).pages.length
          ≤ (scrapesite oracle maxPages conc fuel queue0).fetched.length ∧
        (scrapesite oracle maxPages conc fuel queue0).pages.length ≤ maxPages) ∧
      (demoCrawl.pages.length = 1 ∧ demoCrawl.pages.length < 2 ∧
        (demoOracle "u3").isSome = true ∧ "u3" ∉ demoCrawl.visited ∧
        "u3" ∈ demoCrawl.queue) := by
  constructor
  · intro oracle maxPages conc fuel queue0 hM
    unfold scrapesite
    obtain ⟨ha, hb, hc⟩ := scrapeLoopF_inv oracle maxPages conc hM fuel
      ⟨queue0, [], [], []⟩ (by simp) (by simp) (by simp)
    exact ⟨ha, hb, hc, by omega⟩
  · decide

/-- C10 witness: the budget invariants instantiated at the demo crawl
(budget 2, concurrency 1, three seed URLs). -/
theorem c10_witness :
    0 < 2 ∧
      ((scrapesite demoOracle 2 1 10 ["u1", "u2", "u3"]).visited.length ≤ 2 ∧
        (scrapesite demoOracle 2 1 10 ["u1", "u2", "u3"]).fetched.length
          = (scrapesite demoOracle 2 1 10 ["u1", "u2", "u3"]).visited.length ∧
        (scrapesite demoOracle 2 1 10 ["u1", "u2", "u3"]).pages.length
          ≤ (scrapesite demoOracle 2 1 10 ["u1", "u2", "u3"]).fetched.length ∧
        (scrapesite demoOracle 2 1 10 ["u1", "u2", "u3"]).pages.length ≤ 2) :=
  ⟨by decide, c10_crawl_budget.1 demoOracle 2 1 10 ["u1", "u2", "u3"] (by decide)⟩
